import Mathlib

/-!
Verification of the ChucK engine core (VM, Shreduler, events, carrier
lifecycle) as described by `chuck.h`.  The scheduler, virtual-machine loop,
event and lifecycle operations are embedded as executable Lean definitions;
where the repository ships only declarations, the definitions are modelled
from the specification and say so in their doc comments.
-/

namespace ChuckSpec

/-- Modelled from the spec: the Shreduler implementation (chuck_vm) is not
under src; the spec defines the Shreduler as an ordered collection of
(wake_time, insertion_sequence, shred_id) entries. -/
structure Entry where
  wake_time : Nat
  seq : Nat
  shred_id : Nat
deriving DecidableEq, Repr

/-- Priority order on Shreduler entries: primarily ascending `wake_time`,
secondarily ascending insertion sequence number. -/
def keyLe (a b : Entry) : Prop :=
  a.wake_time < b.wake_time ∨ (a.wake_time = b.wake_time ∧ a.seq ≤ b.seq)

instance : DecidableRel keyLe := fun a b => by
  unfold keyLe
  exact inferInstance

instance : IsTotal Entry keyLe :=
  ⟨by
    intro a b
    unfold keyLe
    omega⟩

instance : IsTrans Entry keyLe :=
  ⟨by
    intro a b c hab hbc
    unfold keyLe at hab hbc ⊢
    omega⟩

/-- Modelled from the spec: the Shreduler, a priority structure of parked
entries together with the global insertion-sequence counter assigned at
enqueue time. -/
structure Shreduler where
  entries : List Entry
  nextSeq : Nat
deriving DecidableEq, Repr

def Shreduler.empty : Shreduler := ⟨[], 0⟩

/-- Modelled from the spec: `enqueue(shred, wake_time)` parks an entry and
assigns the next insertion sequence number.  The ordered collection is kept
sorted by the (wake_time, sequence) key. -/
def Shreduler.enqueue (s : Shreduler) (sid wt : Nat) : Shreduler :=
  ⟨s.entries.orderedInsert keyLe ⟨wt, s.nextSeq, sid⟩, s.nextSeq + 1⟩

/-- Modelled from the spec: `popReady(current_time)` returns the earliest
(wake_time, sequence) entry if its wake_time ≤ current_time, else none. -/
def Shreduler.popReady (s : Shreduler) (t : Nat) : Option (Entry × Shreduler) :=
  match s.entries with
  | [] => none
  | e :: rest => if e.wake_time ≤ t then some (e, ⟨rest, s.nextSeq⟩) else none

/-- Modelled from the spec: `remove(shred_id)` removes a parked entry. -/
def Shreduler.removeId (s : Shreduler) (sid : Nat) : Shreduler :=
  ⟨s.entries.filter (fun e => e.shred_id ≠ sid), s.nextSeq⟩

/-- Enqueue a list of (shred_id, wake_time) requests in order. -/
def Shreduler.enqueueList (s : Shreduler) : List (Nat × Nat) → Shreduler
  | [] => s
  | (sid, wt) :: rest => (s.enqueue sid wt).enqueueList rest

/-- Repeatedly pop ready entries, in pop order. -/
def Shreduler.drain (t : Nat) : Shreduler → Nat → List Entry
  | _, 0 => []
  | s, fuel + 1 =>
    match s.popReady t with
    | none => []
    | some (e, s2) => e :: Shreduler.drain t s2 fuel

/-- Shreduler invariant: the entry list is sorted by the (wake_time, seq)
key, every stored sequence number is below the counter, and sequence
numbers are pairwise distinct. -/
def Shreduler.Inv (s : Shreduler) : Prop :=
  s.entries.Sorted keyLe ∧ (∀ e ∈ s.entries, e.seq < s.nextSeq) ∧
    (s.entries.map Entry.seq).Nodup

theorem Shreduler.Inv_empty : Shreduler.empty.Inv := by
  refine ⟨?_, ?_, ?_⟩ <;> simp [Shreduler.empty]

theorem Shreduler.Inv.enqueue {s : Shreduler} (h : s.Inv) (sid wt : Nat) :
    (s.enqueue sid wt).Inv := by
  obtain ⟨hs, hb, hn⟩ := h
  refine ⟨?_, ?_, ?_⟩
  · exact hs.orderedInsert ⟨wt, s.nextSeq, sid⟩ s.entries
  · intro e he
    rw [Shreduler.enqueue] at he
    simp only [List.mem_orderedInsert] at he
    rcases he with rfl | he
    · exact Nat.lt_succ_self _
    · exact Nat.lt_succ_of_lt (hb e he)
  · have hperm : List.Perm ((s.entries.orderedInsert keyLe ⟨wt, s.nextSeq, sid⟩).map Entry.seq)
        (s.nextSeq :: s.entries.map Entry.seq) :=
      (List.perm_orderedInsert keyLe ⟨wt, s.nextSeq, sid⟩ s.entries).map Entry.seq
    rw [Shreduler.enqueue]
    refine hperm.nodup_iff.mpr (List.nodup_cons.mpr ⟨?_, hn⟩)
    intro hmem
    obtain ⟨e, he, hseq⟩ := List.mem_map.mp hmem
    have := hb e he
    omega

theorem Shreduler.Inv.enqueueList {s : Shreduler} (h : s.Inv) :
    ∀ reqs : List (Nat × Nat), (s.enqueueList reqs).Inv
  | [] => h
  | (sid, wt) :: rest => (h.enqueue sid wt).enqueueList rest

theorem Shreduler.drain_eq_entries {t : Nat} :
    ∀ (fuel : Nat) (s : Shreduler), (∀ e ∈ s.entries, e.wake_time ≤ t) →
      s.entries.length ≤ fuel → Shreduler.drain t s fuel = s.entries := by
  intro fuel
  induction fuel with
  | zero =>
    intro s _ hlen
    have : s.entries = [] := List.eq_nil_of_length_eq_zero (Nat.le_zero.mp hlen)
    simp [Shreduler.drain, this]
  | succ n ih =>
    intro s hready hlen
    match hs : s.entries with
    | [] => simp [Shreduler.drain, Shreduler.popReady, hs]
    | e :: rest =>
      have hew : e.wake_time ≤ t := hready e (by rw [hs]; exact List.mem_cons_self _ _)
      have hrest := ih ⟨rest, s.nextSeq⟩
        (fun x hx => hready x (by rw [hs]; exact List.mem_cons_of_mem _ hx))
        (by have := hlen; rw [hs] at this; simpa using Nat.le_of_succ_le_succ this)
      simp [Shreduler.drain, Shreduler.popReady, hs, hew, hrest]

/-- Among the parked entries sharing one wake_time, sequence numbers are
strictly ascending in list (hence pop) order. -/
theorem Shreduler.Inv.pairwise_seq {s : Shreduler} (h : s.Inv) (w : Nat) :
    List.Pairwise (· < ·)
      (s.entries.filterMap (fun e => if e.wake_time = w then some e.seq else none)) := by
  obtain ⟨hs, _, hn⟩ := h
  have hpw : List.Pairwise keyLe s.entries := hs
  have hne : List.Pairwise (fun a b : Entry => a.seq ≠ b.seq) s.entries :=
    List.pairwise_map.mp hn
  refine List.pairwise_filterMap.mpr ((hpw.and hne).imp ?_)
  intro a b hab x hx y hy
  by_cases haw : a.wake_time = w
  · by_cases hbw : b.wake_time = w
    · simp only [haw, if_pos, Option.mem_some_iff] at hx
      simp only [hbw, if_pos, Option.mem_some_iff] at hy
      obtain ⟨hle, hne2⟩ := hab
      unfold keyLe at hle
      omega
    · simp [hbw] at hy
  · simp [haw] at hx

/-- Membership in the Shreduler is preserved by further enqueues. -/
theorem Shreduler.mem_enqueueList {e : Entry} :
    ∀ (reqs : List (Nat × Nat)) (s : Shreduler), e ∈ s.entries →
      e ∈ (s.enqueueList reqs).entries := by
  intro reqs
  induction reqs with
  | nil => intro s hs; exact hs
  | cons p rest ih =>
    intro s hs
    obtain ⟨sid, wt⟩ := p
    refine ih (s.enqueue sid wt) ?_
    rw [Shreduler.enqueue]
    simp only [List.mem_orderedInsert]
    exact Or.inr hs

/-- The k-th enqueue request receives sequence number `nextSeq + k` and is
parked with the requested id and wake_time. -/
theorem Shreduler.enqueueList_get :
    ∀ (reqs : List (Nat × Nat)) (s : Shreduler) (k : Nat) (hk : k < reqs.length),
      (⟨(reqs.get ⟨k, hk⟩).2, s.nextSeq + k, (reqs.get ⟨k, hk⟩).1⟩ : Entry) ∈
        (s.enqueueList reqs).entries := by
  intro reqs
  induction reqs with
  | nil => intro s k hk; exact absurd hk (by simp)
  | cons p rest ih =>
    intro s k hk
    obtain ⟨sid, wt⟩ := p
    match k with
    | 0 =>
      refine Shreduler.mem_enqueueList rest (s.enqueue sid wt) ?_
      rw [Shreduler.enqueue]
      simp only [List.mem_orderedInsert]
      exact Or.inl (by simp)
    | k + 1 =>
      have hk2 : k < rest.length := by simpa using Nat.lt_of_succ_lt_succ hk
      have := ih (s.enqueue sid wt) k hk2
      rw [Shreduler.enqueue] at this
      simpa [Nat.add_assoc, Nat.add_comm 1 k] using this

/-- Shred lifecycle states from the spec data model. -/
inductive ShredState
  | READY
  | WAITING
  | DONE
  | ERRORED
deriving DecidableEq, Repr

/-- Modelled from the spec: a shred's execution context, reduced to its
observable timing behaviour — the list of remaining time-advance amounts its
program will request — plus its lifecycle state. -/
structure Shred where
  advances : List Nat
  state : ShredState
deriving DecidableEq, Repr

/-- Instance lifecycle states. -/
inductive VMLife
  | UNINITIALIZED
  | INITIALIZED
  | RUNNING
  | HALTED
deriving DecidableEq, Repr

/-- Modelled from the spec: VM instance state — the virtual clock "now", the
Shreduler, the active-shred table keyed by id, a wall-clock sample the
virtual clock must be independent of, and the lifecycle state. -/
structure VM where
  now : Nat
  sh : Shreduler
  table : List (Nat × Shred)
  wall : Nat
  life : VMLife
deriving DecidableEq, Repr

/-- Lookup in the active-shred table by id. -/
def lookupShred : List (Nat × Shred) → Nat → Option Shred
  | [], _ => none
  | (i, s) :: rest, sid => if i = sid then some s else lookupShred rest sid

/-- Replace the shred stored under an id. -/
def updateShred : List (Nat × Shred) → Nat → Shred → List (Nat × Shred)
  | [], _, _ => []
  | (i, s) :: rest, sid, s2 =>
    if i = sid then (i, s2) :: rest else (i, s) :: updateShred rest sid s2

/-- Remove a shred from the active-shred table. -/
def removeShred : List (Nat × Shred) → Nat → List (Nat × Shred)
  | [], _ => []
  | (i, s) :: rest, sid =>
    if i = sid then removeShred rest sid else (i, s) :: removeShred rest sid

/-- Modelled from the spec: executing a popped shred at the current "now".
The shred consumes its next time-advance: with none left it completes and is
removed from the active table (DONE); otherwise it is parked again at
`now + d` and transitions to WAITING. -/
def VM.execShred (v : VM) (sid : Nat) : VM :=
  match lookupShred v.table sid with
  | none => v
  | some sd =>
    match sd.advances with
    | [] => { v with table := removeShred v.table sid }
    | d :: rest =>
      { v with table := updateShred v.table sid ⟨rest, ShredState.WAITING⟩,
               sh := v.sh.enqueue sid (v.now + d) }

/-- Modelled from the spec: the `run()` timing loop over the span
[start, endTime).  It repeatedly pops the earliest ready entry whose
wake_time lies strictly before the span end, advances "now" to that
wake_time, executes the shred, and records the (shred_id, time) wake event;
when no entry is ready within the span it advances "now" to the span end and
returns.  `none` models the fatal-halt exit (fairness fuel exhausted). -/
def VM.runLoop (endTime : Nat) : VM → Nat → Option (VM × List (Nat × Nat))
  | _, 0 => none
  | v, fuel + 1 =>
    match v.sh.entries with
    | [] => some ({ v with now := endTime }, [])
    | e :: rest =>
      if e.wake_time < endTime then
        match VM.runLoop endTime
            (VM.execShred { v with now := e.wake_time, sh := ⟨rest, v.sh.nextSeq⟩ }
              e.shred_id) fuel with
        | none => none
        | some (vr, evs) => some (vr, (e.shred_id, e.wake_time) :: evs)
      else
        some ({ v with now := endTime }, [])

/-- Modelled from the spec: `run(input, output, numFrames)` converts
`numFrames` into an advance of "now" and drives the timing loop over the
span [now, now + numFrames). -/
def VM.run (v : VM) (numFrames fuel : Nat) : Option (VM × List (Nat × Nat)) :=
  VM.runLoop (v.now + numFrames) v fuel

/-- Executing a shred only adds parked entries: membership in the Shreduler
is preserved. -/
theorem VM.execShred_sh_mem (v : VM) (sid : Nat) {e : Entry} (he : e ∈ v.sh.entries) :
    e ∈ (v.execShred sid).sh.entries := by
  cases hl : lookupShred v.table sid with
  | none => simpa [VM.execShred, hl] using he
  | some sd =>
    cases ha : sd.advances with
    | nil => simpa [VM.execShred, hl, ha] using he
    | cons d more =>
      simp only [VM.execShred, hl, ha, Shreduler.enqueue, List.mem_orderedInsert]
      exact Or.inr he

/-- On every successful return the loop has advanced "now" exactly to the
span end. -/
theorem VM.runLoop_now_eq {endTime : Nat} :
    ∀ (fuel : Nat) (v v2 : VM) (evs : List (Nat × Nat)),
      VM.runLoop endTime v fuel = some (v2, evs) → v2.now = endTime := by
  intro fuel
  induction fuel with
  | zero => intro v v2 evs h; exact absurd h (by simp [VM.runLoop])
  | succ n ih =>
    intro v v2 evs h
    rw [VM.runLoop] at h
    split at h
    · simp only [Option.some.injEq, Prod.mk.injEq] at h
      rcases h with ⟨rfl, rfl⟩
      rfl
    · rename_i e rest heq
      split at h
      · split at h
        · exact Option.noConfusion h
        · rename_i vr evs2 hr
          simp only [Option.some.injEq, Prod.mk.injEq] at h
          rcases h with ⟨rfl, rfl⟩
          exact ih _ vr evs2 hr
      · simp only [Option.some.injEq, Prod.mk.injEq] at h
        rcases h with ⟨rfl, rfl⟩
        rfl

/-- Every recorded wake event lies strictly before the span end. -/
theorem VM.runLoop_events_lt {endTime : Nat} :
    ∀ (fuel : Nat) (v v2 : VM) (evs : List (Nat × Nat)),
      VM.runLoop endTime v fuel = some (v2, evs) →
        ∀ ev ∈ evs, ev.2 < endTime := by
  intro fuel
  induction fuel with
  | zero => intro v v2 evs h; exact absurd h (by simp [VM.runLoop])
  | succ n ih =>
    intro v v2 evs h
    rw [VM.runLoop] at h
    split at h
    · simp only [Option.some.injEq, Prod.mk.injEq] at h
      rcases h with ⟨rfl, rfl⟩
      simp
    · rename_i e rest heq
      split at h
      · rename_i hw
        split at h
        · exact Option.noConfusion h
        · rename_i vr evs2 hr
          simp only [Option.some.injEq, Prod.mk.injEq] at h
          rcases h with ⟨rfl, rfl⟩
          intro ev hev
          rcases List.mem_cons.mp hev with rfl | hev
          · exact hw
          · exact ih _ vr evs2 hr ev hev
      · simp only [Option.some.injEq, Prod.mk.injEq] at h
        rcases h with ⟨rfl, rfl⟩
        simp

/-- A parked entry whose wake_time lies at or beyond the span end survives
the whole loop: it is still parked on return. -/
theorem VM.runLoop_parked {endTime : Nat} :
    ∀ (fuel : Nat) (v v2 : VM) (evs : List (Nat × Nat)),
      VM.runLoop endTime v fuel = some (v2, evs) →
        ∀ e ∈ v.sh.entries, endTime ≤ e.wake_time → e ∈ v2.sh.entries := by
  intro fuel
  induction fuel with
  | zero => intro v v2 evs h; exact absurd h (by simp [VM.runLoop])
  | succ n ih =>
    intro v v2 evs h
    rw [VM.runLoop] at h
    split at h
    · rename_i heq
      simp only [Option.some.injEq, Prod.mk.injEq] at h
      rcases h with ⟨rfl, rfl⟩
      intro e he hle
      rw [heq] at he
      exact absurd he (by simp)
    · rename_i e0 rest heq
      split at h
      · rename_i hw
        split at h
        · exact Option.noConfusion h
        · rename_i vr evs2 hr
          simp only [Option.some.injEq, Prod.mk.injEq] at h
          rcases h with ⟨rfl, rfl⟩
          intro e he hle
          rw [heq] at he
          have hne : e ≠ e0 := by
            intro hcontra
            rw [hcontra] at hle
            omega
          have herest : e ∈ rest := by
            rcases List.mem_cons.mp he with hcontra | h2
            · exact absurd hcontra hne
            · exact h2
          exact ih _ vr evs2 hr e (VM.execShred_sh_mem _ _ herest) hle
      · simp only [Option.some.injEq, Prod.mk.injEq] at h
        rcases h with ⟨rfl, rfl⟩
        intro e he hle
        exact he

/-- C2: a `run(numFrames)` call never executes a shred whose wake_time is at
or beyond `now + numFrames` (every wake event lies strictly inside the
span), leaves any such shred parked for a future call, and returns exactly
when `numFrames` of virtual time have been consumed (`now` advances to
exactly `now + numFrames`); the `none` result is the only (fatal-halt) early
exit. -/
theorem C2_block_boundary (v : VM) (numFrames fuel : Nat) (v2 : VM)
    (evs : List (Nat × Nat)) (h : v.run numFrames fuel = some (v2, evs)) :
    (∀ ev ∈ evs, ev.2 < v.now + numFrames) ∧
    v2.now = v.now + numFrames ∧
    (∀ e ∈ v.sh.entries, v.now + numFrames ≤ e.wake_time → e ∈ v2.sh.entries) := by
  refine ⟨VM.runLoop_events_lt fuel v v2 evs h, VM.runLoop_now_eq fuel v v2 evs h,
    VM.runLoop_parked fuel v v2 evs h⟩

theorem C2_block_boundary_witness :
    (VM.mk 0 ⟨[⟨2, 0, 1⟩, ⟨20, 1, 2⟩], 2⟩
        [(1, ⟨[], ShredState.READY⟩), (2, ⟨[], ShredState.WAITING⟩)] 0
        VMLife.RUNNING).run 10 3 =
      some (VM.mk 10 ⟨[⟨20, 1, 2⟩], 2⟩ [(2, ⟨[], ShredState.WAITING⟩)] 0
        VMLife.RUNNING, [(1, 2)]) ∧
    ((∀ ev ∈ [((1 : Nat), (2 : Nat))], ev.2 < 0 + 10) ∧
      (VM.mk 10 ⟨[⟨20, 1, 2⟩], 2⟩ [(2, ⟨[], ShredState.WAITING⟩)] 0
        VMLife.RUNNING).now = 0 + 10 ∧
      (∀ e ∈ (VM.mk 0 ⟨[⟨2, 0, 1⟩, ⟨20, 1, 2⟩], 2⟩
          [(1, ⟨[], ShredState.READY⟩), (2, ⟨[], ShredState.WAITING⟩)] 0
          VMLife.RUNNING).sh.entries, 0 + 10 ≤ e.wake_time →
        e ∈ (VM.mk 10 ⟨[⟨20, 1, 2⟩], 2⟩ [(2, ⟨[], ShredState.WAITING⟩)] 0
          VMLife.RUNNING).sh.entries)) :=
  ⟨by decide,
    C2_block_boundary
      (VM.mk 0 ⟨[⟨2, 0, 1⟩, ⟨20, 1, 2⟩], 2⟩
        [(1, ⟨[], ShredState.READY⟩), (2, ⟨[], ShredState.WAITING⟩)] 0
        VMLife.RUNNING) 10 3
      (VM.mk 10 ⟨[⟨20, 1, 2⟩], 2⟩ [(2, ⟨[], ShredState.WAITING⟩)] 0
        VMLife.RUNNING) [(1, 2)] (by decide)⟩

inductive SuspendError
  | InvalidTime
deriving DecidableEq, Repr

/-- Modelled from the spec: `suspendUntil(time)` sets the wake_time and parks
the shred in the Shreduler when `time` is at or after the current "now",
and fails with InvalidTime otherwise. -/
def VM.suspendUntil (v : VM) (sid time : Nat) : Except SuspendError VM :=
  if time < v.now then Except.error SuspendError.InvalidTime
  else Except.ok { v with sh := v.sh.enqueue sid time }

/-- VM timing invariant: the Shreduler invariant holds and every parked
entry wakes at or after the current "now". -/
def VM.Inv (v : VM) : Prop :=
  v.sh.Inv ∧ ∀ e ∈ v.sh.entries, v.now ≤ e.wake_time

instance : DecidablePred Shreduler.Inv := fun s => by
  unfold Shreduler.Inv
  exact inferInstance

instance : DecidablePred VM.Inv := fun v => by
  unfold VM.Inv
  exact inferInstance

theorem VM.execShred_now (v : VM) (sid : Nat) : (v.execShred sid).now = v.now := by
  cases hl : lookupShred v.table sid with
  | none => simp [VM.execShred, hl]
  | some sd =>
    cases ha : sd.advances with
    | nil => simp [VM.execShred, hl, ha]
    | cons d more => simp [VM.execShred, hl, ha]

theorem VM.execShred_inv {v : VM} (hv : v.Inv) (sid : Nat) : (v.execShred sid).Inv := by
  obtain ⟨hsh, hwake⟩ := hv
  cases hl : lookupShred v.table sid with
  | none => simpa [VM.execShred, hl] using ⟨hsh, hwake⟩
  | some sd =>
    cases ha : sd.advances with
    | nil => simpa [VM.execShred, hl, ha] using ⟨hsh, hwake⟩
    | cons d more =>
      refine ⟨?_, ?_⟩
      · simpa [VM.execShred, hl, ha] using hsh.enqueue sid (v.now + d)
      · intro e he
        simp only [VM.execShred, hl, ha, Shreduler.enqueue,
          List.mem_orderedInsert] at he ⊢
        rcases he with rfl | he
        · simp [VM.execShred, hl, ha]
        · exact hwake e he

/-- The timing invariant passes through the whole loop: on success every
wake event happens at or after the starting "now", and on return the
invariant holds again (in particular every still-parked entry wakes at or
after the final "now"). -/
theorem VM.runLoop_inv {endTime : Nat} :
    ∀ (fuel : Nat) (v v2 : VM) (evs : List (Nat × Nat)), v.Inv →
      VM.runLoop endTime v fuel = some (v2, evs) →
        (∀ ev ∈ evs, v.now ≤ ev.2) ∧ v2.Inv := by
  intro fuel
  induction fuel with
  | zero => intro v v2 evs _ h; exact absurd h (by simp [VM.runLoop])
  | succ n ih =>
    intro v v2 evs hv h
    obtain ⟨⟨hsort, hbound, hnodup⟩, hwake⟩ := hv
    rw [VM.runLoop] at h
    split at h
    · rename_i heq
      simp only [Option.some.injEq, Prod.mk.injEq] at h
      rcases h with ⟨rfl, rfl⟩
      refine ⟨by simp, ⟨⟨hsort, hbound, hnodup⟩, ?_⟩⟩
      intro e he
      rw [heq] at he
      exact absurd he (by simp)
    · rename_i e0 rest heq
      have hsortc : List.Sorted keyLe (e0 :: rest) := heq ▸ hsort
      have hboundc : ∀ e ∈ e0 :: rest, e.seq < v.sh.nextSeq := heq ▸ hbound
      have hnodupc : ((e0 :: rest).map Entry.seq).Nodup := heq ▸ hnodup
      have hwakec : ∀ e ∈ e0 :: rest, v.now ≤ e.wake_time := heq ▸ hwake
      have hrest_wake : ∀ x ∈ rest, e0.wake_time ≤ x.wake_time := by
        intro x hx
        have := (List.sorted_cons.mp hsortc).1 x hx
        unfold keyLe at this
        omega
      split at h
      · rename_i hw
        split at h
        · exact Option.noConfusion h
        · rename_i vr evs2 hr
          simp only [Option.some.injEq, Prod.mk.injEq] at h
          rcases h with ⟨rfl, rfl⟩
          have hv1 : ({ v with
              now := e0.wake_time,
              sh := ⟨rest, v.sh.nextSeq⟩ } : VM).Inv := by
            refine ⟨⟨(List.sorted_cons.mp hsortc).2, ?_, ?_⟩, ?_⟩
            · intro e he; exact hboundc e (List.mem_cons_of_mem _ he)
            · exact (List.nodup_cons.mp hnodupc).2
            · intro e he; exact hrest_wake e he
          have hexec := VM.execShred_inv hv1 e0.shred_id
          obtain ⟨hevs2, hinv2⟩ := ih _ vr evs2 hexec hr
          have hnow1 : (VM.execShred { v with
              now := e0.wake_time,
              sh := ⟨rest, v.sh.nextSeq⟩ } e0.shred_id).now = e0.wake_time :=
            VM.execShred_now _ _
          have he0 : v.now ≤ e0.wake_time :=
            hwakec e0 (List.mem_cons_self _ _)
          refine ⟨?_, hinv2⟩
          intro ev hev
          rcases List.mem_cons.mp hev with rfl | hev
          · exact he0
          · have := hevs2 ev hev
            rw [hnow1] at this
            omega
      · rename_i hw
        simp only [Option.some.injEq, Prod.mk.injEq] at h
        rcases h with ⟨rfl, rfl⟩
        refine ⟨by simp, ⟨⟨hsort, hbound, hnodup⟩, ?_⟩⟩
        intro e he
        rw [heq] at he
        rcases List.mem_cons.mp he with rfl | he
        · show endTime ≤ e.wake_time
          exact Nat.le_of_not_lt hw
        · show endTime ≤ e.wake_time
          have h1 := hrest_wake e he
          have h2 := Nat.le_of_not_lt hw
          omega

/-- C4: the virtual clock never decreases and is advanced only to
`now + numFrames` by a delivered audio block; every wake event during a call
happens at or after the starting "now"; on return every still-parked entry
wakes at or after the final "now"; and `suspendUntil(time)` fails with
InvalidTime when `time < now`, while on success it parks the shred with
wake_time = time ≥ "now" and leaves "now" unchanged. -/
theorem C4_clock_monotone (v : VM) (sid time numFrames fuel : Nat) (v2 : VM)
    (evs : List (Nat × Nat)) (hInv : v.Inv) :
    (time < v.now → v.suspendUntil sid time = Except.error SuspendError.InvalidTime) ∧
    (v.now ≤ time → ∃ v3, v.suspendUntil sid time = Except.ok v3 ∧ v3.now = v.now ∧
      (⟨time, v.sh.nextSeq, sid⟩ : Entry) ∈ v3.sh.entries ∧ v3.now ≤ time) ∧
    (v.run numFrames fuel = some (v2, evs) →
      v2.now = v.now + numFrames ∧ v.now ≤ v2.now ∧
      (∀ ev ∈ evs, v.now ≤ ev.2) ∧ (∀ e ∈ v2.sh.entries, v2.now ≤ e.wake_time)) := by
  refine ⟨?_, ?_, ?_⟩
  · intro hlt
    rw [VM.suspendUntil, if_pos hlt]
  · intro hge
    refine ⟨{ v with sh := v.sh.enqueue sid time }, ?_, rfl, ?_, hge⟩
    · rw [VM.suspendUntil, if_neg (Nat.not_lt.mpr hge)]
    · show (⟨time, v.sh.nextSeq, sid⟩ : Entry) ∈
        (v.sh.enqueue sid time).entries
      rw [Shreduler.enqueue]
      simp [List.mem_orderedInsert]
  · intro hrun
    have hnow := VM.runLoop_now_eq fuel v v2 evs hrun
    obtain ⟨hevs, hinv2⟩ := VM.runLoop_inv fuel v v2 evs hInv hrun
    exact ⟨hnow, by omega, hevs, hinv2.2⟩

theorem C4_clock_monotone_witness :
    (VM.mk 5 ⟨[⟨7, 0, 1⟩], 1⟩ [(1, ⟨[3], ShredState.WAITING⟩)] 0
        VMLife.RUNNING).Inv ∧
    ((9 < 5 →
        (VM.mk 5 ⟨[⟨7, 0, 1⟩], 1⟩ [(1, ⟨[3], ShredState.WAITING⟩)] 0
          VMLife.RUNNING).suspendUntil 2 9 =
          Except.error SuspendError.InvalidTime) ∧
      (5 ≤ 9 → ∃ v3, (VM.mk 5 ⟨[⟨7, 0, 1⟩], 1⟩
          [(1, ⟨[3], ShredState.WAITING⟩)] 0 VMLife.RUNNING).suspendUntil 2 9 =
            Except.ok v3 ∧ v3.now = 5 ∧
          (⟨9, 1, 2⟩ : Entry) ∈ v3.sh.entries ∧ v3.now ≤ 9) ∧
      ((VM.mk 5 ⟨[⟨7, 0, 1⟩], 1⟩ [(1, ⟨[3], ShredState.WAITING⟩)] 0
          VMLife.RUNNING).run 4 3 =
          some (VM.mk 9 ⟨[⟨10, 1, 1⟩], 2⟩ [(1, ⟨[], ShredState.WAITING⟩)] 0
            VMLife.RUNNING, [(1, 7)]) →
        (VM.mk 9 ⟨[⟨10, 1, 1⟩], 2⟩ [(1, ⟨[], ShredState.WAITING⟩)] 0
          VMLife.RUNNING).now = 5 + 4 ∧
        5 ≤ (VM.mk 9 ⟨[⟨10, 1, 1⟩], 2⟩ [(1, ⟨[], ShredState.WAITING⟩)] 0
          VMLife.RUNNING).now ∧
        (∀ ev ∈ [((1 : Nat), (7 : Nat))], 5 ≤ ev.2) ∧
        (∀ e ∈ (VM.mk 9 ⟨[⟨10, 1, 1⟩], 2⟩ [(1, ⟨[], ShredState.WAITING⟩)] 0
            VMLife.RUNNING).sh.entries,
          (VM.mk 9 ⟨[⟨10, 1, 1⟩], 2⟩ [(1, ⟨[], ShredState.WAITING⟩)] 0
            VMLife.RUNNING).now ≤ e.wake_time))) :=
  ⟨by decide,
    C4_clock_monotone
      (VM.mk 5 ⟨[⟨7, 0, 1⟩], 1⟩ [(1, ⟨[3], ShredState.WAITING⟩)] 0
        VMLife.RUNNING) 2 9 4 3
      (VM.mk 9 ⟨[⟨10, 1, 1⟩], 2⟩ [(1, ⟨[], ShredState.WAITING⟩)] 0
        VMLife.RUNNING) [(1, 7)] (by decide)⟩

/-- The virtual-machine state that determines execution: the virtual clock,
the Shreduler, the active-shred table and the lifecycle state — everything
except the wall clock. -/
def VM.virt (v : VM) : Nat × Shreduler × List (Nat × Shred) × VMLife :=
  (v.now, v.sh, v.table, v.life)

theorem VM.execShred_virt_eq {v1 v2 : VM} (h : v1.virt = v2.virt) (sid : Nat) :
    (v1.execShred sid).virt = (v2.execShred sid).virt := by
  obtain ⟨n1, s1, t1, w1, l1⟩ := v1
  obtain ⟨n2, s2, t2, w2, l2⟩ := v2
  simp only [VM.virt, Prod.mk.injEq] at h
  obtain ⟨hn, hs, ht, hl⟩ := h
  subst hn; subst hs; subst ht; subst hl
  cases hl2 : lookupShred t1 sid with
  | none => simp [VM.execShred, hl2, VM.virt]
  | some sd =>
    cases ha : sd.advances with
    | nil => simp [VM.execShred, hl2, ha, VM.virt]
    | cons d more => simp [VM.execShred, hl2, ha, VM.virt]

/-- The run loop depends only on the virtual state: two VMs that agree on
everything but the wall clock produce the same wake-event trace and the same
resulting virtual state. -/
theorem VM.runLoop_virt_eq {endTime : Nat} :
    ∀ (fuel : Nat) (v1 v2 : VM), v1.virt = v2.virt →
      Option.map (fun p => (p.1.virt, p.2)) (VM.runLoop endTime v1 fuel) =
      Option.map (fun p => (p.1.virt, p.2)) (VM.runLoop endTime v2 fuel) := by
  intro fuel
  induction fuel with
  | zero => intro v1 v2 h; simp [VM.runLoop]
  | succ n ih =>
    intro v1 v2 h
    have hvirt := h
    simp only [VM.virt, Prod.mk.injEq] at h
    obtain ⟨hn, hs, ht, hl⟩ := h
    rw [VM.runLoop, VM.runLoop, hs]
    cases hent : v2.sh.entries with
    | nil =>
      simp only [hent, Option.map_some']
      simp [VM.virt, hn, hs, ht, hl]
    | cons e rest =>
      simp only [hent]
      by_cases hw : e.wake_time < endTime
      · rw [if_pos hw, if_pos hw]
        have hexecv : (VM.execShred { v1 with
              now := e.wake_time, sh := ⟨rest, v2.sh.nextSeq⟩ } e.shred_id).virt =
            (VM.execShred { v2 with
              now := e.wake_time, sh := ⟨rest, v2.sh.nextSeq⟩ } e.shred_id).virt :=
          VM.execShred_virt_eq (by simp [VM.virt, ht, hl]) _
        have key := ih _ _ hexecv
        cases hr1 : VM.runLoop endTime (VM.execShred { v1 with
            now := e.wake_time, sh := ⟨rest, v2.sh.nextSeq⟩ } e.shred_id) n with
        | none =>
          rw [hr1] at key
          cases hr2 : VM.runLoop endTime (VM.execShred { v2 with
              now := e.wake_time, sh := ⟨rest, v2.sh.nextSeq⟩ } e.shred_id) n with
          | none => simp [hr1, hr2]
          | some p2 => rw [hr2] at key; exact absurd key (by simp)
        | some p1 =>
          rw [hr1] at key
          cases hr2 : VM.runLoop endTime (VM.execShred { v2 with
              now := e.wake_time, sh := ⟨rest, v2.sh.nextSeq⟩ } e.shred_id) n with
          | none => rw [hr2] at key; exact absurd key (by simp)
          | some p2 =>
            rw [hr2] at key
            obtain ⟨vr1, evs1⟩ := p1
            obtain ⟨vr2, evs2⟩ := p2
            simp only [Option.map_some', Option.some.injEq, Prod.mk.injEq] at key
            obtain ⟨hvr, hevs⟩ := key
            simp [hr1, hr2, hvr, hevs]
      · rw [if_neg hw, if_neg hw]
        simp [VM.virt, hn, hs, ht, hl]

/-- Modelled from the spec: one audio-callback invocation — `run(numFrames)`
followed by an arbitrary advance of the wall clock, which the virtual state
must be independent of. -/
def VM.runCall (v : VM) (numFrames wallDelta fuel : Nat) :
    Option (VM × List (Nat × Nat)) :=
  match v.run numFrames fuel with
  | none => none
  | some (v2, evs) => some ({ v2 with wall := v2.wall + wallDelta }, evs)

/-- A whole session: a sequence of (numFrames, wallDelta) callback calls,
accumulating the wake-event trace. -/
def VM.runSeq (fuel : Nat) : VM → List (Nat × Nat) → Option (VM × List (Nat × Nat))
  | v, [] => some (v, [])
  | v, c :: rest =>
    match v.runCall c.1 c.2 fuel with
    | none => none
    | some (v2, evs) =>
      match VM.runSeq fuel v2 rest with
      | none => none
      | some (v3, evs2) => some (v3, evs ++ evs2)

theorem VM.runCall_virt_eq {v1 v2 : VM} (h : v1.virt = v2.virt)
    (numFrames wd1 wd2 fuel : Nat) :
    Option.map (fun p => (p.1.virt, p.2)) (v1.runCall numFrames wd1 fuel) =
    Option.map (fun p => (p.1.virt, p.2)) (v2.runCall numFrames wd2 fuel) := by
  have hn : v1.now = v2.now := congrArg Prod.fst h
  have key : Option.map (fun p => (p.1.virt, p.2)) (v1.run numFrames fuel) =
      Option.map (fun p => (p.1.virt, p.2)) (v2.run numFrames fuel) := by
    rw [VM.run, VM.run, hn]
    exact VM.runLoop_virt_eq fuel v1 v2 h
  rw [VM.runCall, VM.runCall]
  cases hr1 : v1.run numFrames fuel with
  | none =>
    rw [hr1] at key
    cases hr2 : v2.run numFrames fuel with
    | none => simp [hr1, hr2]
    | some p2 => rw [hr2] at key; exact absurd key (by simp)
  | some p1 =>
    rw [hr1] at key
    cases hr2 : v2.run numFrames fuel with
    | none => rw [hr2] at key; exact absurd key (by simp)
    | some p2 =>
      rw [hr2] at key
      obtain ⟨vr1, evs1⟩ := p1
      obtain ⟨vr2, evs2⟩ := p2
      simp only [Option.map_some', Option.some.injEq, Prod.mk.injEq] at key
      obtain ⟨hvr, hevs⟩ := key
      simp only [Option.map_some', Option.some.injEq, Prod.mk.injEq]
      constructor
      · obtain ⟨a1, b1, c1, d1, e1⟩ := vr1
        obtain ⟨a2, b2, c2, d2, e2⟩ := vr2
        simp only [VM.virt, Prod.mk.injEq] at hvr ⊢
        exact hvr
      · exact hevs

/-- C3: full-run determinism. Two runs whose virtual states agree (the wall
clock may differ), with the same sequence of numFrames per call (wall-clock
advances may differ), produce identical wake/execute event traces and
identical resulting virtual state. -/
theorem C3_run_determinism (v1 v2 : VM) (fuel : Nat) :
    ∀ (calls1 calls2 : List (Nat × Nat)), v1.virt = v2.virt →
      calls1.map Prod.fst = calls2.map Prod.fst →
      Option.map (fun p => (p.1.virt, p.2)) (VM.runSeq fuel v1 calls1) =
      Option.map (fun p => (p.1.virt, p.2)) (VM.runSeq fuel v2 calls2) := by
  suffices hgen : ∀ (calls1 : List (Nat × Nat)) (u1 u2 : VM)
      (calls2 : List (Nat × Nat)), u1.virt = u2.virt →
      calls1.map Prod.fst = calls2.map Prod.fst →
      Option.map (fun p => (p.1.virt, p.2)) (VM.runSeq fuel u1 calls1) =
      Option.map (fun p => (p.1.virt, p.2)) (VM.runSeq fuel u2 calls2) by
    intro calls1 calls2 hv hc
    exact hgen calls1 v1 v2 calls2 hv hc
  intro calls1
  induction calls1 with
  | nil =>
    intro u1 u2 calls2 hv hc
    have : calls2 = [] := by
      cases calls2 with
      | nil => rfl
      | cons c cs => exact absurd hc (by simp)
    subst this
    simp [VM.runSeq, hv]
  | cons c1 rest1 ih =>
    intro u1 u2 calls2 hv hc
    cases calls2 with
    | nil => exact absurd hc (by simp)
    | cons c2 rest2 =>
      simp only [List.map_cons, List.cons.injEq] at hc
      obtain ⟨hc1, hcrest⟩ := hc
      rw [VM.runSeq, VM.runSeq]
      have key : Option.map (fun p => (p.1.virt, p.2)) (u1.runCall c1.1 c1.2 fuel) =
          Option.map (fun p => (p.1.virt, p.2)) (u2.runCall c2.1 c2.2 fuel) := by
        rw [hc1]
        exact VM.runCall_virt_eq hv c2.1 c1.2 c2.2 fuel
      cases hr1 : u1.runCall c1.1 c1.2 fuel with
      | none =>
        rw [hr1] at key
        cases hr2 : u2.runCall c2.1 c2.2 fuel with
        | none => simp [hr1, hr2]
        | some p2 => rw [hr2] at key; exact absurd key (by simp)
      | some p1 =>
        rw [hr1] at key
        cases hr2 : u2.runCall c2.1 c2.2 fuel with
        | none => rw [hr2] at key; exact absurd key (by simp)
        | some p2 =>
          rw [hr2] at key
          obtain ⟨w1, evs1⟩ := p1
          obtain ⟨w2, evs2⟩ := p2
          simp only [Option.map_some', Option.some.injEq, Prod.mk.injEq] at key
          obtain ⟨hw, hevs⟩ := key
          have tail := ih w1 w2 rest2 hw hcrest
          cases ht1 : VM.runSeq fuel w1 rest1 with
          | none =>
            rw [ht1] at tail
            cases ht2 : VM.runSeq fuel w2 rest2 with
            | none => simp [ht1, ht2]
            | some q2 => rw [ht2] at tail; exact absurd tail (by simp)
          | some q1 =>
            rw [ht1] at tail
            cases ht2 : VM.runSeq fuel w2 rest2 with
            | none => rw [ht2] at tail; exact absurd tail (by simp)
            | some q2 =>
              rw [ht2] at tail
              obtain ⟨x1, tr1⟩ := q1
              obtain ⟨x2, tr2⟩ := q2
              simp only [Option.map_some', Option.some.injEq, Prod.mk.injEq] at tail
              obtain ⟨hx, htr⟩ := tail
              simp [hr1, hr2, ht1, ht2, hx, htr, hevs]

theorem C3_run_determinism_witness :
    (VM.mk 0 ⟨[⟨2, 0, 1⟩], 1⟩ [(1, ⟨[4], ShredState.READY⟩)] 0
        VMLife.RUNNING).virt =
      (VM.mk 0 ⟨[⟨2, 0, 1⟩], 1⟩ [(1, ⟨[4], ShredState.READY⟩)] 99
        VMLife.RUNNING).virt ∧
    ([(5, 1), (6, 2)] : List (Nat × Nat)).map Prod.fst =
      ([(5, 7), (6, 0)] : List (Nat × Nat)).map Prod.fst ∧
    Option.map (fun p => (p.1.virt, p.2))
        (VM.runSeq 4 (VM.mk 0 ⟨[⟨2, 0, 1⟩], 1⟩
          [(1, ⟨[4], ShredState.READY⟩)] 0 VMLife.RUNNING) [(5, 1), (6, 2)]) =
      Option.map (fun p => (p.1.virt, p.2))
        (VM.runSeq 4 (VM.mk 0 ⟨[⟨2, 0, 1⟩], 1⟩
          [(1, ⟨[4], ShredState.READY⟩)] 99 VMLife.RUNNING) [(5, 7), (6, 0)]) :=
  ⟨by decide, by decide,
    C3_run_determinism
      (VM.mk 0 ⟨[⟨2, 0, 1⟩], 1⟩ [(1, ⟨[4], ShredState.READY⟩)] 0
        VMLife.RUNNING)
      (VM.mk 0 ⟨[⟨2, 0, 1⟩], 1⟩ [(1, ⟨[4], ShredState.READY⟩)] 99
        VMLife.RUNNING) 4 [(5, 1), (6, 2)] [(5, 7), (6, 0)]
      (by decide) (by decide)⟩

/-- Modelled from the spec: an Event holds the FIFO-ordered ids of the
shreds currently waiting on it. -/
structure Event where
  waiting : List Nat
deriving DecidableEq, Repr

/-- Modelled from the spec: `wait(shred)` appends the shred to the FIFO
waiting set. -/
def Event.waitShred (ev : Event) (sid : Nat) : Event :=
  ⟨ev.waiting ++ [sid]⟩

/-- Re-enqueue each listed shred as READY at the current "now", in list
order, so they receive consecutive insertion sequence numbers. -/
def VM.enqueueIds (v : VM) : List Nat → VM
  | [] => v
  | sid :: rest => VM.enqueueIds { v with sh := v.sh.enqueue sid v.now } rest

/-- Modelled from the spec: `signal()` removes and re-enqueues exactly the
earliest-registered waiting shred as READY at the current "now"; a no-op
when the waiting set is empty. -/
def Event.signal (ev : Event) (v : VM) : Event × VM :=
  match ev.waiting with
  | [] => (ev, v)
  | sid :: rest => (⟨rest⟩, { v with sh := v.sh.enqueue sid v.now })

/-- Modelled from the spec: `broadcast()` removes and re-enqueues all
waiting shreds as READY at the current "now", preserving registration
order. -/
def Event.broadcast (ev : Event) (v : VM) : Event × VM :=
  (⟨[]⟩, v.enqueueIds ev.waiting)

/-- The batch of entries created when the listed shreds are woken together
at time `t` with consecutive sequence numbers starting at `q`. -/
def mkEntries (t : Nat) : Nat → List Nat → List Entry
  | _, [] => []
  | q, sid :: rest => ⟨t, q, sid⟩ :: mkEntries t (q + 1) rest

theorem VM.enqueueIds_spec :
    ∀ (ids : List Nat) (v : VM),
      (v.enqueueIds ids).now = v.now ∧
      (v.enqueueIds ids).table = v.table ∧
      (v.enqueueIds ids).life = v.life ∧
      List.Perm (v.enqueueIds ids).sh.entries
        (mkEntries v.now v.sh.nextSeq ids ++ v.sh.entries) := by
  intro ids
  induction ids with
  | nil => intro v; exact ⟨rfl, rfl, rfl, by simp [VM.enqueueIds, mkEntries]⟩
  | cons sid rest ih =>
    intro v
    obtain ⟨h1, h2, h3, h4⟩ := ih { v with sh := v.sh.enqueue sid v.now }
    refine ⟨h1, h2, h3, ?_⟩
    have hins : List.Perm (v.sh.enqueue sid v.now).entries
        ((⟨v.now, v.sh.nextSeq, sid⟩ : Entry) :: v.sh.entries) :=
      List.perm_orderedInsert keyLe _ _
    refine h4.trans ?_
    refine (List.Perm.append_left _ hins).trans ?_
    simp only [mkEntries, List.cons_append]
    exact List.perm_middle

/-- C5: with the waiting set in FIFO registration order, `signal()` wakes
exactly the earliest-registered waiting shred, re-enqueued READY at the
current "now" (and is a no-op when the waiting set is empty), while
`broadcast()` wakes all waiting shreds at the current "now" with
consecutive sequence numbers in registration order. -/
theorem C5_event_fifo (v : VM) (sid : Nat) (rest w : List Nat) :
    (Event.signal ⟨[]⟩ v = (⟨[]⟩, v)) ∧
    ((Event.signal ⟨sid :: rest⟩ v).1 = ⟨rest⟩ ∧
      (Event.signal ⟨sid :: rest⟩ v).2.now = v.now ∧
      (Event.signal ⟨sid :: rest⟩ v).2.table = v.table ∧
      List.Perm (Event.signal ⟨sid :: rest⟩ v).2.sh.entries
        ((⟨v.now, v.sh.nextSeq, sid⟩ : Entry) :: v.sh.entries)) ∧
    ((Event.broadcast ⟨w⟩ v).1 = ⟨[]⟩ ∧
      (Event.broadcast ⟨w⟩ v).2.now = v.now ∧
      (Event.broadcast ⟨w⟩ v).2.table = v.table ∧
      List.Perm (Event.broadcast ⟨w⟩ v).2.sh.entries
        (mkEntries v.now v.sh.nextSeq w ++ v.sh.entries)) := by
  refine ⟨rfl, ⟨rfl, rfl, rfl, ?_⟩, ⟨rfl, ?_, ?_, ?_⟩⟩
  · exact List.perm_orderedInsert keyLe _ _
  · exact (VM.enqueueIds_spec w v).1
  · exact (VM.enqueueIds_spec w v).2.1
  · exact (VM.enqueueIds_spec w v).2.2.2

/-- Modelled from the spec: handling a runtime fault (type violation,
out-of-bounds access, null dereference) raised while shred `sid` runs: the
shred is marked ERRORED and removed from the active table; everything else,
including the VM lifecycle state, is untouched. -/
def VM.handleFault (v : VM) (sid : Nat) : VM × Option Shred :=
  match lookupShred v.table sid with
  | none => (v, none)
  | some sd =>
    ({ v with table := removeShred v.table sid },
      some { sd with state := ShredState.ERRORED })

theorem lookupShred_removeShred_self :
    ∀ (tbl : List (Nat × Shred)) (sid : Nat),
      lookupShred (removeShred tbl sid) sid = none := by
  intro tbl sid
  induction tbl with
  | nil => rfl
  | cons p rest ih =>
    obtain ⟨i, s⟩ := p
    by_cases hi : i = sid
    · simp [removeShred, hi, ih]
    · simp [removeShred, lookupShred, hi, ih]

theorem lookupShred_removeShred_ne :
    ∀ (tbl : List (Nat × Shred)) (sid j : Nat), j ≠ sid →
      lookupShred (removeShred tbl sid) j = lookupShred tbl j := by
  intro tbl sid j hne
  induction tbl with
  | nil => rfl
  | cons p rest ih =>
    obtain ⟨i, s⟩ := p
    by_cases hi : i = sid
    · subst hi
      have : ¬ (i = j) := fun h => hne h.symm
      simp [removeShred, lookupShred, this, ih]
    · by_cases hij : i = j
      · subst hij
        simp [removeShred, lookupShred, hi]
      · simp [removeShred, lookupShred, hi, hij, ih]

/-- C6: a runtime fault in one shred marks only that shred ERRORED and
removes it from the active table; every sibling shred's table entry, the
clock, the Shreduler and the VM lifecycle state (it stays RUNNING) are
unchanged. -/
theorem C6_fault_isolation (v : VM) (sid : Nat) (sd : Shred)
    (h : lookupShred v.table sid = some sd) :
    (v.handleFault sid).2 = some { sd with state := ShredState.ERRORED } ∧
    lookupShred (v.handleFault sid).1.table sid = none ∧
    (∀ j, j ≠ sid →
      lookupShred (v.handleFault sid).1.table j = lookupShred v.table j) ∧
    (v.handleFault sid).1.life = v.life ∧
    (v.handleFault sid).1.now = v.now ∧
    (v.handleFault sid).1.sh = v.sh ∧
    (v.life = VMLife.RUNNING → (v.handleFault sid).1.life = VMLife.RUNNING) := by
  refine ⟨by simp [VM.handleFault, h], ?_, ?_, by simp [VM.handleFault, h],
    by simp [VM.handleFault, h], by simp [VM.handleFault, h],
    by intro hr; simp [VM.handleFault, h, hr]⟩
  · simp only [VM.handleFault, h]
    exact lookupShred_removeShred_self _ _
  · intro j hj
    simp only [VM.handleFault, h]
    exact lookupShred_removeShred_ne _ _ _ hj

theorem C6_fault_isolation_witness :
    lookupShred (VM.mk 3 ⟨[], 0⟩
        [(1, ⟨[2], ShredState.READY⟩), (2, ⟨[5], ShredState.READY⟩)] 0
        VMLife.RUNNING).table 1 = some ⟨[2], ShredState.READY⟩ ∧
    (((VM.mk 3 ⟨[], 0⟩
        [(1, ⟨[2], ShredState.READY⟩), (2, ⟨[5], ShredState.READY⟩)] 0
        VMLife.RUNNING).handleFault 1).2 =
        some ⟨[2], ShredState.ERRORED⟩ ∧
      lookupShred ((VM.mk 3 ⟨[], 0⟩
        [(1, ⟨[2], ShredState.READY⟩), (2, ⟨[5], ShredState.READY⟩)] 0
        VMLife.RUNNING).handleFault 1).1.table 1 = none ∧
      (∀ j, j ≠ 1 →
        lookupShred ((VM.mk 3 ⟨[], 0⟩
          [(1, ⟨[2], ShredState.READY⟩), (2, ⟨[5], ShredState.READY⟩)] 0
          VMLife.RUNNING).handleFault 1).1.table j =
        lookupShred (VM.mk 3 ⟨[], 0⟩
          [(1, ⟨[2], ShredState.READY⟩), (2, ⟨[5], ShredState.READY⟩)] 0
          VMLife.RUNNING).table j) ∧
      ((VM.mk 3 ⟨[], 0⟩
        [(1, ⟨[2], ShredState.READY⟩), (2, ⟨[5], ShredState.READY⟩)] 0
        VMLife.RUNNING).handleFault 1).1.life = VMLife.RUNNING ∧
      ((VM.mk 3 ⟨[], 0⟩
        [(1, ⟨[2], ShredState.READY⟩), (2, ⟨[5], ShredState.READY⟩)] 0
        VMLife.RUNNING).handleFault 1).1.now = 3 ∧
      ((VM.mk 3 ⟨[], 0⟩
        [(1, ⟨[2], ShredState.READY⟩), (2, ⟨[5], ShredState.READY⟩)] 0
        VMLife.RUNNING).handleFault 1).1.sh = ⟨[], 0⟩ ∧
      (VMLife.RUNNING = VMLife.RUNNING →
        ((VM.mk 3 ⟨[], 0⟩
          [(1, ⟨[2], ShredState.READY⟩), (2, ⟨[5], ShredState.READY⟩)] 0
          VMLife.RUNNING).handleFault 1).1.life = VMLife.RUNNING)) :=
  ⟨by decide,
    C6_fault_isolation
      (VM.mk 3 ⟨[], 0⟩
        [(1, ⟨[2], ShredState.READY⟩), (2, ⟨[5], ShredState.READY⟩)] 0
        VMLife.RUNNING) 1 ⟨[2], ShredState.READY⟩ (by decide)⟩

/-- Modelled from the spec: the carrier binds one VM with the instance-local
shred-id counter used by spork. -/
structure Carrier where
  vmS : VM
  nextShredId : Nat
deriving DecidableEq, Repr

/-- Modelled from the spec: spork one shred from a compiled program —
register it READY in the active table under a fresh id and park it at the
current "now". -/
def Carrier.spork (c : Carrier) (prog : List Nat) : Carrier :=
  ⟨{ c.vmS with
      table := (c.nextShredId, ⟨prog, ShredState.READY⟩) :: c.vmS.table,
      sh := c.vmS.sh.enqueue c.nextShredId c.vmS.now }, c.nextShredId + 1⟩

/-- Spork `count` shreds from one program. -/
def Carrier.sporkN (c : Carrier) (prog : List Nat) : Nat → Carrier
  | 0 => c
  | k + 1 => (c.spork prog).sporkN prog k

/-- Modelled from the spec: `compileCode(code, args, count)` — the compiler
collaborator (absent from src, passed as a function producing a program or
failing) is invoked; on success `count` shreds are sporked, on failure a
failure indicator is returned and the carrier is left untouched.
`compileFile` differs only in fetching the source text by path. -/
def Carrier.compileCode (c : Carrier) (compile : String → Option (List Nat))
    (code : String) (count : Nat) : Bool × Carrier :=
  match compile code with
  | none => (false, c)
  | some prog => (true, c.sporkN prog count)

/-- C7: a `compileCode`/`compileFile` call whose compilation fails returns a
failure indicator, creates zero shreds (the active-shred count is
unchanged), and leaves the whole instance state exactly as it was. -/
theorem C7_compile_failure (c : Carrier) (compile : String → Option (List Nat))
    (code : String) (count : Nat) (h : compile code = none) :
    c.compileCode compile code count = (false, c) ∧
    (c.compileCode compile code count).2.vmS.table.length =
      c.vmS.table.length := by
  simp [Carrier.compileCode, h]

theorem C7_compile_failure_witness :
    (fun (_ : String) => (none : Option (List Nat))) "int i; i =>" = none ∧
    ((Carrier.mk (VM.mk 0 ⟨[], 0⟩ [] 0 VMLife.RUNNING) 1).compileCode
        (fun _ => none) "int i; i =>" 1 =
      (false, Carrier.mk (VM.mk 0 ⟨[], 0⟩ [] 0 VMLife.RUNNING) 1) ∧
    ((Carrier.mk (VM.mk 0 ⟨[], 0⟩ [] 0 VMLife.RUNNING) 1).compileCode
        (fun _ => none) "int i; i =>" 1).2.vmS.table.length =
      (Carrier.mk (VM.mk 0 ⟨[], 0⟩ [] 0 VMLife.RUNNING) 1).vmS.table.length) :=
  ⟨rfl,
    C7_compile_failure (Carrier.mk (VM.mk 0 ⟨[], 0⟩ [] 0 VMLife.RUNNING) 1)
      (fun _ => none) "int i; i =>" 1 rfl⟩

/-- The type of a configuration parameter value. -/
inductive PType
  | TINT
  | TSTRING
  | TSTRLIST
deriving DecidableEq, Repr

/-- A configuration parameter value. -/
inductive PVal
  | vint (n : Int)
  | vstr (s : String)
  | vlist (l : List String)
deriving DecidableEq, Repr

/-- Modelled from the spec: the recognized configuration keys (the
CHUCK_PARAM_* names of chuck.h) and the value type each one stores;
unrecognized keys have no type. -/
def keyType (k : String) : Option PType :=
  if k = "SAMPLE_RATE" ∨ k = "INPUT_CHANNELS" ∨ k = "OUTPUT_CHANNELS" ∨
      k = "VM_ADAPTIVE" ∨ k = "VM_HALT" ∨ k = "OTF_ENABLE" ∨ k = "OTF_PORT" ∨
      k = "DUMP_INSTRUCTIONS" ∨ k = "AUTO_DEPEND" ∨ k = "DEPRECATE_LEVEL" ∨
      k = "CHUGIN_ENABLE" ∨ k = "HINT_IS_REALTIME_AUDIO" then
    some PType.TINT
  else if k = "WORKING_DIRECTORY" ∨ k = "CHUGIN_DIRECTORY" then
    some PType.TSTRING
  else if k = "USER_CHUGINS" ∨ k = "USER_CHUGIN_DIRECTORIES" then
    some PType.TSTRLIST
  else
    none

/-- The instance-local configuration map (m_params / m_listParams). -/
structure Params where
  entries : List (String × PVal)
deriving DecidableEq, Repr

def updateParam : List (String × PVal) → String → PVal → List (String × PVal)
  | [], k, v => [(k, v)]
  | (k0, v0) :: rest, k, v =>
    if k0 = k then (k, v) :: rest else (k0, v0) :: updateParam rest k v

def lookupParam : List (String × PVal) → String → Option PVal
  | [], _ => none
  | (k0, v0) :: rest, k => if k0 = k then some v0 else lookupParam rest k

/-- Modelled from the spec: `setParam(name, intValue)` — validated at set
time; an unknown key or a key of a different stored type fails the call and
changes nothing. -/
def Params.setParamInt (p : Params) (key : String) (value : Int) : Bool × Params :=
  match keyType key with
  | some PType.TINT => (true, ⟨updateParam p.entries key (PVal.vint value)⟩)
  | _ => (false, p)

/-- Modelled from the spec: `setParam(name, stringValue)`. -/
def Params.setParamString (p : Params) (key : String) (value : String) :
    Bool × Params :=
  match keyType key with
  | some PType.TSTRING => (true, ⟨updateParam p.entries key (PVal.vstr value)⟩)
  | _ => (false, p)

/-- Modelled from the spec: `setParam(name, stringListValue)`. -/
def Params.setParamList (p : Params) (key : String) (value : List String) :
    Bool × Params :=
  match keyType key with
  | some PType.TSTRLIST => (true, ⟨updateParam p.entries key (PVal.vlist value)⟩)
  | _ => (false, p)

/-- Modelled from the spec: `getParamInt(key)` — fails (none) on an unknown
key or a key of a different stored type. -/
def Params.getParamInt (p : Params) (key : String) : Option Int :=
  match keyType key with
  | some PType.TINT =>
    match lookupParam p.entries key with
    | some (PVal.vint n) => some n
    | _ => none
  | _ => none

/-- Modelled from the spec: `getParamString(key)`. -/
def Params.getParamString (p : Params) (key : String) : Option String :=
  match keyType key with
  | some PType.TSTRING =>
    match lookupParam p.entries key with
    | some (PVal.vstr s) => some s
    | _ => none
  | _ => none

/-- C8: a configuration set or get with an unknown key, or with a key whose
stored type does not match the accessor, fails (failure return / none) and
leaves the parameter map — and hence the instance — unchanged. -/
theorem C8_param_errors (p : Params) (key : String) (n : Int) (s : String)
    (l : List String) :
    (keyType key = none →
      p.setParamInt key n = (false, p) ∧
      p.setParamString key s = (false, p) ∧
      p.setParamList key l = (false, p) ∧
      p.getParamInt key = none ∧
      p.getParamString key = none) ∧
    (∀ t, keyType key = some t → t ≠ PType.TINT →
      p.setParamInt key n = (false, p) ∧ p.getParamInt key = none) ∧
    (∀ t, keyType key = some t → t ≠ PType.TSTRING →
      p.setParamString key s = (false, p) ∧ p.getParamString key = none) ∧
    (∀ t, keyType key = some t → t ≠ PType.TSTRLIST →
      p.setParamList key l = (false, p)) := by
  refine ⟨?_, ?_, ?_, ?_⟩
  · intro hk
    refine ⟨?_, ?_, ?_, ?_, ?_⟩ <;>
      simp [Params.setParamInt, Params.setParamString, Params.setParamList,
        Params.getParamInt, Params.getParamString, hk]
  · intro t hk ht
    cases t with
    | TINT => exact absurd rfl ht
    | TSTRING =>
      exact ⟨by simp [Params.setParamInt, hk], by simp [Params.getParamInt, hk]⟩
    | TSTRLIST =>
      exact ⟨by simp [Params.setParamInt, hk], by simp [Params.getParamInt, hk]⟩
  · intro t hk ht
    cases t with
    | TSTRING => exact absurd rfl ht
    | TINT =>
      exact ⟨by simp [Params.setParamString, hk],
        by simp [Params.getParamString, hk]⟩
    | TSTRLIST =>
      exact ⟨by simp [Params.setParamString, hk],
        by simp [Params.getParamString, hk]⟩
  · intro t hk ht
    cases t with
    | TSTRLIST => exact absurd rfl ht
    | TINT => simp [Params.setParamList, hk]
    | TSTRING => simp [Params.setParamList, hk]

theorem C8_param_errors_witness :
    ((Params.mk []).setParamInt "NOT_A_KEY" 44100 = (false, Params.mk []) ∧
      (Params.mk []).getParamInt "NOT_A_KEY" = none) ∧
    ((Params.mk []).setParamInt "WORKING_DIRECTORY" 1 = (false, Params.mk []) ∧
      (Params.mk []).getParamInt "WORKING_DIRECTORY" = none) := by
  have h1 := C8_param_errors (Params.mk []) "NOT_A_KEY" 44100 "" []
  have h2 := C8_param_errors (Params.mk []) "WORKING_DIRECTORY" 1 "" []
  obtain ⟨ha, -, -, -⟩ := h1
  obtain ⟨-, hb, -, -⟩ := h2
  obtain ⟨u1, -, -, u4, -⟩ := ha (by decide)
  obtain ⟨m1, m2⟩ := hb PType.TSTRING (by decide) (by decide)
  exact ⟨⟨u1, u4⟩, ⟨m1, m2⟩⟩

/-- The embedding-API operations driving the instance lifecycle. -/
inductive Op
  | opInit
  | opStart
  | opRun
  | opHalt
deriving DecidableEq, Repr

/-- An engine instance reduced to its lifecycle state. -/
structure Inst where
  life : VMLife
deriving DecidableEq, Repr

/-- Modelled from the spec: the instance lifecycle state machine.
`init()` succeeds from UNINITIALIZED (and from HALTED: re-init), `start()`
and `run()` require a prior `init()` (the first `run()` also starts),
`run()` keeps a RUNNING instance RUNNING and no-ops/fails on a HALTED one,
and a fatal error or explicit halt moves RUNNING to HALTED. -/
def Inst.applyOp (s : Inst) : Op → Bool × Inst
  | Op.opInit =>
    match s.life with
    | VMLife.UNINITIALIZED => (true, ⟨VMLife.INITIALIZED⟩)
    | VMLife.HALTED => (true, ⟨VMLife.INITIALIZED⟩)
    | _ => (false, s)
  | Op.opStart =>
    match s.life with
    | VMLife.INITIALIZED => (true, ⟨VMLife.RUNNING⟩)
    | _ => (false, s)
  | Op.opRun =>
    match s.life with
    | VMLife.INITIALIZED => (true, ⟨VMLife.RUNNING⟩)
    | VMLife.RUNNING => (true, s)
    | _ => (false, s)
  | Op.opHalt =>
    match s.life with
    | VMLife.RUNNING => (true, ⟨VMLife.HALTED⟩)
    | _ => (false, s)

/-- C9: the lifecycle admits only the listed transitions — UNINITIALIZED to
INITIALIZED via init, INITIALIZED to RUNNING via start or the first run,
RUNNING to HALTED via halt/fatal error, HALTED back to INITIALIZED only via
re-init; every other operation leaves the state unchanged; start and run
fail before init; run on a HALTED instance no-ops with failure. -/
theorem C9_lifecycle (l : VMLife) (op : Op) :
    ((Inst.applyOp ⟨l⟩ op).2.life = l ∨
      (l = VMLife.UNINITIALIZED ∧ op = Op.opInit ∧
        (Inst.applyOp ⟨l⟩ op).2.life = VMLife.INITIALIZED) ∨
      (l = VMLife.INITIALIZED ∧ (op = Op.opStart ∨ op = Op.opRun) ∧
        (Inst.applyOp ⟨l⟩ op).2.life = VMLife.RUNNING) ∨
      (l = VMLife.RUNNING ∧ op = Op.opHalt ∧
        (Inst.applyOp ⟨l⟩ op).2.life = VMLife.HALTED) ∨
      (l = VMLife.HALTED ∧ op = Op.opInit ∧
        (Inst.applyOp ⟨l⟩ op).2.life = VMLife.INITIALIZED)) ∧
    Inst.applyOp ⟨VMLife.UNINITIALIZED⟩ Op.opStart =
      (false, ⟨VMLife.UNINITIALIZED⟩) ∧
    Inst.applyOp ⟨VMLife.UNINITIALIZED⟩ Op.opRun =
      (false, ⟨VMLife.UNINITIALIZED⟩) ∧
    Inst.applyOp ⟨VMLife.HALTED⟩ Op.opRun = (false, ⟨VMLife.HALTED⟩) ∧
    Inst.applyOp ⟨VMLife.HALTED⟩ Op.opStart = (false, ⟨VMLife.HALTED⟩) ∧
    Inst.applyOp ⟨VMLife.UNINITIALIZED⟩ Op.opInit =
      (true, ⟨VMLife.INITIALIZED⟩) ∧
    Inst.applyOp ⟨VMLife.INITIALIZED⟩ Op.opStart =
      (true, ⟨VMLife.RUNNING⟩) ∧
    Inst.applyOp ⟨VMLife.INITIALIZED⟩ Op.opRun = (true, ⟨VMLife.RUNNING⟩) ∧
    Inst.applyOp ⟨VMLife.RUNNING⟩ Op.opHalt = (true, ⟨VMLife.HALTED⟩) := by
  cases l <;> cases op <;> decide

/-- The VM as seen through the carrier pointer: only whether it reports
running (Chuck_VM::running()). -/
structure Chuck_VM where
  m_running : Bool
deriving DecidableEq, Repr

def Chuck_VM.running (vm : Chuck_VM) : Bool := vm.m_running

/-- The carrier of chuck.h: its `vm` member is a pointer that may be null
(`none`). -/
structure Chuck_Carrier where
  vm : Option Chuck_VM
deriving DecidableEq, Repr

/-- The ChucK instance of chuck.h, reduced to the members `vm_running()`
reads. -/
structure ChucK where
  m_carrier : Chuck_Carrier
  m_init : Bool
deriving DecidableEq, Repr

/-- `ChucK::isInit()` from chuck.h: `return m_init;`. -/
def ChucK.isInit (c : ChucK) : Bool := c.m_init

/-- `ChucK::vm_running()` from chuck.h:
`return m_carrier->vm && m_carrier->vm->running();` — the null pointer is
`none`, and the short-circuit `&&` evaluates `running()` only when the
pointer is non-null. -/
def ChucK.vm_running (c : ChucK) : Bool :=
  match c.m_carrier.vm with
  | none => false
  | some vm => vm.running

/-- C10: `vm_running()` on an instance whose carrier has no VM (a null `vm`
pointer, e.g. before `init()`) returns false without touching the VM, and
returns true exactly when a VM exists and reports running. -/
theorem C10_vm_running (c : ChucK) :
    (c.m_carrier.vm = none → c.vm_running = false) ∧
    (c.vm_running = true ↔
      ∃ vm, c.m_carrier.vm = some vm ∧ vm.running = true) := by
  cases hv : c.m_carrier.vm with
  | none =>
    refine ⟨fun _ => by simp [ChucK.vm_running, hv], ?_⟩
    simp [ChucK.vm_running, hv]
  | some vm =>
    refine ⟨fun hcontra => Option.noConfusion hcontra, ?_⟩
    simp [ChucK.vm_running, hv]

theorem C10_vm_running_witness :
    ((ChucK.mk (Chuck_Carrier.mk none) false).m_carrier.vm = none →
      (ChucK.mk (Chuck_Carrier.mk none) false).vm_running = false) ∧
    ((ChucK.mk (Chuck_Carrier.mk none) false).vm_running = true ↔
      ∃ vm, (ChucK.mk (Chuck_Carrier.mk none) false).m_carrier.vm = some vm ∧
        vm.running = true) :=
  C10_vm_running (ChucK.mk (Chuck_Carrier.mk none) false)

/-- C1: For any set of shreds parked in the Shreduler with the same
wake_time, the order in which they are popped and executed equals ascending
insertion-sequence order (the sequence number assigned at enqueue time,
namely `k` for the k-th enqueue), regardless of the order in which they were
enqueued. -/
theorem C1_shreduler_tie_break (reqs : List (Nat × Nat)) (w t fuel : Nat)
    (hready : ∀ e ∈ (Shreduler.empty.enqueueList reqs).entries, e.wake_time ≤ t)
    (hfuel : (Shreduler.empty.enqueueList reqs).entries.length ≤ fuel) :
    List.Pairwise (· < ·)
      ((Shreduler.drain t (Shreduler.empty.enqueueList reqs) fuel).filterMap
        (fun e => if e.wake_time = w then some e.seq else none)) ∧
    (∀ (k : Nat) (hk : k < reqs.length),
      (⟨(reqs.get ⟨k, hk⟩).2, k, (reqs.get ⟨k, hk⟩).1⟩ : Entry) ∈
        (Shreduler.empty.enqueueList reqs).entries) := by
  have hinv := Shreduler.Inv_empty.enqueueList reqs
  constructor
  · rw [Shreduler.drain_eq_entries fuel _ hready hfuel]
    exact hinv.pairwise_seq w
  · intro k hk
    have := Shreduler.enqueueList_get reqs Shreduler.empty k hk
    simpa [Shreduler.empty] using this

theorem C1_shreduler_tie_break_witness :
    (∀ e ∈ (Shreduler.empty.enqueueList [(7, 5), (8, 3), (9, 5)]).entries, e.wake_time ≤ 9) ∧
    (Shreduler.empty.enqueueList [(7, 5), (8, 3), (9, 5)]).entries.length ≤ 3 ∧
    (List.Pairwise (· < ·)
      ((Shreduler.drain 9 (Shreduler.empty.enqueueList [(7, 5), (8, 3), (9, 5)]) 3).filterMap
        (fun e => if e.wake_time = 5 then some e.seq else none)) ∧
    (∀ (k : Nat) (hk : k < ([(7, 5), (8, 3), (9, 5)] : List (Nat × Nat)).length),
      (⟨(([(7, 5), (8, 3), (9, 5)] : List (Nat × Nat)).get ⟨k, hk⟩).2, k,
        (([(7, 5), (8, 3), (9, 5)] : List (Nat × Nat)).get ⟨k, hk⟩).1⟩ : Entry) ∈
        (Shreduler.empty.enqueueList [(7, 5), (8, 3), (9, 5)]).entries)) :=
  ⟨by decide, by decide, C1_shreduler_tie_break [(7, 5), (8, 3), (9, 5)] 5 9 3 (by decide) (by decide)⟩

end ChuckSpec
